import Mathlib

/-!
# Verification of the index / workspace core of a small git-like tool

Shallow embedding of `src/index.rs` (Entry codec, Index table, write
protocol) and `src/workspace.rs` (directory scanner) from the repository.

Conventions of the embedding:
* Rust `u8` bytes are modelled as `Nat` (values kept below 256 by the
  byte-extraction helpers); byte strings (`Vec<u8>`, `String`, `&str`,
  `PathBuf`) are `List Nat` holding the underlying bytes.  Rust's
  `String::from_utf8_unchecked` followed by `as_bytes` is the identity on
  the underlying bytes, so those conversions vanish in the model.
* The filesystem `Metadata` is the record of the integer fields the code
  reads from it.
* `sha1` below is a full executable SHA-1 over byte lists; the streaming
  `CoreWrapper<Sha1Core>` digest state of `Index` is modelled by the list
  of bytes fed to it so far (a streaming SHA-1 state is a function of the
  fed prefix), with `finalize` of a clone modelled as applying `sha1` to
  that list.
* `lockfile.rs` is not part of the provided sources; `LockFile` is
  modelled from the spec (see its doc comment).
-/

set_option maxRecDepth 100000

/-- Big-endian bytes of the low 16 bits of `n`
(Rust `to_be_bytes()[6..8]` of a `usize`). -/
def be16 (n : Nat) : List Nat :=
  [n / 0x100 % 256, n % 256]

/-- Big-endian bytes of the low 32 bits of `n`
(Rust `to_be_bytes()[4..8]` of an 8-byte integer, or `to_be_bytes()` of a
`u32`). -/
def be32 (n : Nat) : List Nat :=
  [n / 0x1000000 % 256, n / 0x10000 % 256, n / 0x100 % 256, n % 256]

/-- Big-endian bytes of the low 64 bits of `n`. -/
def be64 (n : Nat) : List Nat :=
  be32 (n / 0x100000000) ++ be32 n

theorem be32_length (n : Nat) : (be32 n).length = 4 := rfl

/-! ## SHA-1 (executable, over byte lists) -/

/-- Left-rotation of a 32-bit word by `s` bits (for `x < 2^32`, `s ≤ 32`). -/
def rotl32 (s x : Nat) : Nat :=
  (x * 2 ^ s + x / 2 ^ (32 - s)) % 2 ^ 32

/-- Split a list into chunks of `n` elements (fuel-driven; fuel = length). -/
def chunksGo (n : Nat) : Nat → List α → List (List α)
  | _, [] => []
  | 0, _ => []
  | fuel + 1, l => l.take n :: chunksGo n fuel (l.drop n)

def chunks (n : Nat) (l : List α) : List (List α) :=
  chunksGo n l.length l

/-- One big-endian 32-bit word from (up to) four bytes. -/
def wordOfBytes (bs : List Nat) : Nat :=
  bs.foldl (fun acc b => acc * 256 + b % 256) 0

/-- SHA-1 message padding: append `0x80`, zeros, and the 64-bit bit length,
reaching a multiple of 64 bytes. -/
def sha1Pad (msg : List Nat) : List Nat :=
  msg ++ [0x80] ++ List.replicate ((119 - msg.length % 64) % 64) 0
      ++ be64 (msg.length * 8)

/-- Extend the 16 schedule words of a block to 80. -/
def sha1Schedule (w16 : List Nat) : List Nat :=
  (List.range 64).foldl
    (fun w _ =>
      let n := w.length
      w ++ [rotl32 1 ((w.getD (n - 3) 0 ^^^ w.getD (n - 8) 0) ^^^
                      (w.getD (n - 14) 0 ^^^ w.getD (n - 16) 0))])
    w16

/-- One SHA-1 round: `st = (a, b, c, d, e)`, round index `t`, word `wt`. -/
def sha1Round (st : Nat × Nat × Nat × Nat × Nat) (t wt : Nat) :
    Nat × Nat × Nat × Nat × Nat :=
  let a := st.1
  let b := st.2.1
  let c := st.2.2.1
  let d := st.2.2.2.1
  let e := st.2.2.2.2
  let f :=
    if t < 20 then (b &&& c) ||| ((b ^^^ 0xFFFFFFFF) &&& d)
    else if t < 40 then (b ^^^ c) ^^^ d
    else if t < 60 then ((b &&& c) ||| (b &&& d)) ||| (c &&& d)
    else (b ^^^ c) ^^^ d
  let k :=
    if t < 20 then 0x5A827999
    else if t < 40 then 0x6ED9EBA1
    else if t < 60 then 0x8F1BBCDC
    else 0xCA62C1D6
  let temp := (rotl32 5 a + f + e + k + wt) % 2 ^ 32
  (temp, a, rotl32 30 b, c, d)

/-- Process one 64-byte block. -/
def sha1Block (h : Nat × Nat × Nat × Nat × Nat) (block : List Nat) :
    Nat × Nat × Nat × Nat × Nat :=
  let w := sha1Schedule ((chunks 4 block).map wordOfBytes)
  let st := (List.range 80).foldl (fun st t => sha1Round st t (w.getD t 0)) h
  ((h.1 + st.1) % 2 ^ 32,
   (h.2.1 + st.2.1) % 2 ^ 32,
   (h.2.2.1 + st.2.2.1) % 2 ^ 32,
   (h.2.2.2.1 + st.2.2.2.1) % 2 ^ 32,
   (h.2.2.2.2 + st.2.2.2.2) % 2 ^ 32)

/-- SHA-1 digest (20 bytes) of a byte list. -/
def sha1 (msg : List Nat) : List Nat :=
  let h := (chunks 64 (sha1Pad msg)).foldl sha1Block
    (0x67452301, 0xEFCDAB89, 0x98BADCFE, 0x10325476, 0xC3D2E1F0)
  be32 h.1 ++ be32 h.2.1 ++ be32 h.2.2.1 ++ be32 h.2.2.2.1 ++ be32 h.2.2.2.2

theorem sha1_length (msg : List Nat) : (sha1 msg).length = 20 := by
  simp [sha1, be32]

/-- SHA-1 test vector: digest of the empty message. -/
theorem sha1_nil :
    sha1 [] = [0xda, 0x39, 0xa3, 0xee, 0x5e, 0x6b, 0x4b, 0x0d, 0x32, 0x55,
               0xbf, 0xef, 0x95, 0x60, 0x18, 0x90, 0xaf, 0xd8, 0x07, 0x09] := by
  decide

/-- SHA-1 test vector: digest of `"abc"`. -/
theorem sha1_abc :
    sha1 [0x61, 0x62, 0x63] =
      [0xa9, 0x99, 0x3e, 0x36, 0x47, 0x06, 0x81, 0x6a, 0xba, 0x3e,
       0x25, 0x71, 0x78, 0x50, 0xc2, 0x6c, 0x9c, 0xd0, 0xd8, 0x9d] := by
  decide

/-! ## UTF-8 validity (Rust `str` well-formedness)

`PathBuf::to_str` succeeds exactly when the underlying bytes are valid
UTF-8 (no overlong encodings, no surrogates, at most U+10FFFF); the
resulting `&str` has the same bytes. -/

/-- A UTF-8 continuation byte: `0x80 ..= 0xBF`. -/
def utf8Cont (b : Nat) : Bool :=
  0x80 ≤ b && b ≤ 0xBF

/-- Validity of a byte list as UTF-8 (mirrors Rust's `str` validity). -/
def isValidUtf8 : List Nat → Bool
  | [] => true
  | b :: r =>
    if b ≤ 0x7F then isValidUtf8 r
    else if 0xC2 ≤ b && b ≤ 0xDF then
      match r with
      | b1 :: r => utf8Cont b1 && isValidUtf8 r
      | [] => false
    else if b = 0xE0 then
      match r with
      | b1 :: b2 :: r => (0xA0 ≤ b1 && b1 ≤ 0xBF) && utf8Cont b2 && isValidUtf8 r
      | _ => false
    else if (0xE1 ≤ b && b ≤ 0xEC) || b = 0xEE || b = 0xEF then
      match r with
      | b1 :: b2 :: r => utf8Cont b1 && utf8Cont b2 && isValidUtf8 r
      | _ => false
    else if b = 0xED then
      match r with
      | b1 :: b2 :: r => (0x80 ≤ b1 && b1 ≤ 0x9F) && utf8Cont b2 && isValidUtf8 r
      | _ => false
    else if b = 0xF0 then
      match r with
      | b1 :: b2 :: b3 :: r =>
        (0x90 ≤ b1 && b1 ≤ 0xBF) && utf8Cont b2 && utf8Cont b3 && isValidUtf8 r
      | _ => false
    else if 0xF1 ≤ b && b ≤ 0xF3 then
      match r with
      | b1 :: b2 :: b3 :: r =>
        utf8Cont b1 && utf8Cont b2 && utf8Cont b3 && isValidUtf8 r
      | _ => false
    else if b = 0xF4 then
      match r with
      | b1 :: b2 :: b3 :: r =>
        (0x80 ≤ b1 && b1 ≤ 0x8F) && utf8Cont b2 && utf8Cont b3 && isValidUtf8 r
      | _ => false
    else false

/-- Model of `PathBuf::to_str` on the path's bytes: `some` (same bytes,
now known to be a `&str`) iff the bytes are valid UTF-8. -/
def pathToStr (p : List Nat) : Option (List Nat) :=
  if isValidUtf8 p then some p else none

/-! ## Byte-lexicographic comparison (Rust `Ord` on `String` / `[u8]`) -/

/-- `a ≤ b` in byte-lexicographic order (Rust's `Ord::le` on byte strings). -/
def bytesLe : List Nat → List Nat → Bool
  | [], _ => true
  | _ :: _, [] => false
  | a :: as, b :: bs => if a < b then true else if b < a then false else bytesLe as bs

/-- `a < b` in byte-lexicographic order (Rust's `Ordering::Less` on byte
strings). -/
def bytesLt : List Nat → List Nat → Bool
  | [], [] => false
  | [], _ :: _ => true
  | _ :: _, [] => false
  | a :: as, b :: bs => if a < b then true else if b < a then false else bytesLt as bs

theorem bytesLe_refl : ∀ a, bytesLe a a = true
  | [] => rfl
  | _ :: as => by simp [bytesLe, bytesLe_refl as]

theorem bytesLe_total : ∀ a b, bytesLe a b = true ∨ bytesLe b a = true
  | [], _ => Or.inl rfl
  | _ :: _, [] => Or.inr rfl
  | a :: as, b :: bs => by
    by_cases hab : a < b
    · exact Or.inl (by simp [bytesLe, hab])
    · by_cases hba : b < a
      · exact Or.inr (by simp [bytesLe, hba, Nat.lt_asymm hba])
      · have : a = b := Nat.le_antisymm (Nat.not_lt.mp hba) (Nat.not_lt.mp hab)
        subst this
        rcases bytesLe_total as bs with h | h
        · exact Or.inl (by simp [bytesLe, h])
        · exact Or.inr (by simp [bytesLe, h])

theorem bytesLe_trans : ∀ a b c, bytesLe a b = true → bytesLe b c = true →
    bytesLe a c = true
  | [], _, _, _, _ => rfl
  | a :: as, [], c, h, _ => by simp [bytesLe] at h
  | a :: as, b :: bs, [], _, h => by simp [bytesLe] at h
  | a :: as, b :: bs, c :: cs, h₁, h₂ => by
    simp only [bytesLe] at h₁ h₂ ⊢
    split at h₁
    · rename_i hab
      split at h₂
      · rename_i hbc
        simp [Nat.lt_trans hab hbc]
      · split at h₂
        · exact absurd h₂ (by simp)
        · rename_i hbc hcb
          have : b = c := Nat.le_antisymm (Nat.not_lt.mp hcb) (Nat.not_lt.mp hbc)
          subst this
          simp [hab]
    · split at h₁
      · exact absurd h₁ (by simp)
      · rename_i hab hba
        have : a = b := Nat.le_antisymm (Nat.not_lt.mp hba) (Nat.not_lt.mp hab)
        subst this
        split at h₂
        · rename_i hac
          simp [hac]
        · split at h₂
          · exact absurd h₂ (by simp)
          · rename_i hac hca
            have : a = c := Nat.le_antisymm (Nat.not_lt.mp hca) (Nat.not_lt.mp hac)
            subst this
            simp [bytesLe_trans as bs cs h₁ h₂, Nat.lt_irrefl]

theorem bytesLe_antisymm : ∀ a b, bytesLe a b = true → bytesLe b a = true → a = b
  | [], [], _, _ => rfl
  | [], _ :: _, _, h => by simp [bytesLe] at h
  | _ :: _, [], h, _ => by simp [bytesLe] at h
  | a :: as, b :: bs, h₁, h₂ => by
    simp only [bytesLe] at h₁ h₂
    split at h₁
    · rename_i hab
      simp [hab, Nat.lt_asymm hab] at h₂
    · split at h₁
      · exact absurd h₁ (by simp)
      · rename_i hab hba
        have hh : a = b := Nat.le_antisymm (Nat.not_lt.mp hba) (Nat.not_lt.mp hab)
        subst hh
        simp only [Nat.lt_irrefl, if_neg (Nat.lt_irrefl a)] at h₂
        simp [bytesLe_antisymm as bs h₁ h₂]

theorem bytesLt_iff : ∀ a b, bytesLt a b = true ↔ (bytesLe a b = true ∧ a ≠ b)
  | [], [] => by simp [bytesLt, bytesLe]
  | [], _ :: _ => by simp [bytesLt, bytesLe]
  | _ :: _, [] => by simp [bytesLt, bytesLe]
  | a :: as, b :: bs => by
    by_cases hab : a < b
    · simp [bytesLt, bytesLe, hab, Nat.ne_of_lt hab]
    · by_cases hba : b < a
      · simp [bytesLt, bytesLe, hab, hba]
      · have : a = b := Nat.le_antisymm (Nat.not_lt.mp hba) (Nat.not_lt.mp hab)
        subst this
        simp [bytesLt, bytesLe, Nat.lt_irrefl, bytesLt_iff as bs]

/-- The `Prop`-valued byte-lexicographic order, for `insertionSort`. -/
def bytesLeP (a b : List Nat) : Prop := bytesLe a b = true

instance : DecidableRel bytesLeP := fun a b => by
  unfold bytesLeP; infer_instance

instance : IsTotal (List Nat) bytesLeP := ⟨bytesLe_total⟩

instance : IsTrans (List Nat) bytesLeP := ⟨bytesLe_trans⟩

instance : IsAntisymm (List Nat) bytesLeP := ⟨bytesLe_antisymm⟩

/-! ## Entry codec (`src/index.rs`, `Entry`) -/

/-- The integer fields `Entry::new` reads from `std::fs::Metadata`
(`ctime`, `ctime_nsec`, `mtime`, `mtime_nsec`, `dev`, `ino`,
`permissions().mode()`, `uid`, `gid`, `size`). -/
structure StatData where
  ctime : Nat
  ctime_nsec : Nat
  mtime : Nat
  mtime_nsec : Nat
  dev : Nat
  ino : Nat
  perm_mode : Nat
  uid : Nat
  gid : Nat
  size : Nat
deriving DecidableEq, Repr

/-- `Entry` of `src/index.rs`: the `[u8; 4]` fields are 4-byte lists, the
`[u8; 2]` flags a 2-byte list, `oid : Vec<u8>` and the pathname `String`
their byte lists. -/
structure Entry where
  ctime : List Nat
  ctime_nsec : List Nat
  mtime : List Nat
  mtime_nsec : List Nat
  dev : List Nat
  ino : List Nat
  mode : List Nat
  uid : List Nat
  gid : List Nat
  size : List Nat
  oid : List Nat
  flags : List Nat
  path : List Nat
deriving DecidableEq, Repr

/-- The record literal built at the end of `Entry::new`, once
`path.to_str()` has succeeded with byte content `pathname`.
`to_be_bytes()[4..8]` of the 8-byte stat integers is `be32`,
`uid`/`gid` are `u32` so `to_be_bytes()` is `be32`, and
`flags = min(0xFFF, pathname.len()).to_be_bytes()[6..8]` is `be16`. -/
def Entry.build (pathname : List Nat) (object_id : List Nat)
    (stat : StatData) : Entry :=
  { ctime := be32 stat.ctime
    ctime_nsec := be32 stat.ctime_nsec
    mtime := be32 stat.mtime
    mtime_nsec := be32 stat.mtime_nsec
    dev := be32 stat.dev
    ino := be32 stat.ino
    mode := if stat.perm_mode &&& 0o100 ≠ 0 then [0x00, 0x00, 0x81, 0xED]
            else [0x00, 0x00, 0x81, 0xA4]
    uid := be32 stat.uid
    gid := be32 stat.gid
    size := be32 stat.size
    oid := object_id
    flags := be16 (min 0xFFF pathname.length)
    path := pathname }

/-- `Entry::new` of `src/index.rs`.  `none` models the
`eprintln!` + `panic!()` taken when `path.to_str()` returns `None`
(i.e. when the path bytes are not valid UTF-8). -/
def Entry.new (path : List Nat) (object_id : List Nat)
    (stat : StatData) : Option Entry :=
  match pathToStr path with
  | some pathname => some (Entry.build pathname object_id stat)
  | none => none

/-- The unpadded serialization: the thirteen `extend_from_slice` calls of
`Entry::to_string` before padding. -/
def Entry.unpadded (e : Entry) : List Nat :=
  e.ctime ++ e.ctime_nsec ++ e.mtime ++ e.mtime_nsec ++ e.dev ++ e.ino ++
    e.mode ++ e.uid ++ e.gid ++ e.size ++ e.oid ++ e.flags ++ e.path

/-- The `while res.len() % 8 != 0 { res.push(0) }` loop of
`Entry::to_string`. -/
def padLoop (res : List Nat) : List Nat :=
  if res.length % 8 = 0 then res
  else padLoop (res ++ [0])
termination_by (8 - res.length % 8) % 8
decreasing_by simp; omega

/-- `Entry::to_string` of `src/index.rs`, as the bytes of the returned
`String` (built by `String::from_utf8_unchecked`, which preserves the
bytes exactly). -/
def Entry.toString (e : Entry) : List Nat :=
  let res := e.unpadded
  if res.length % 8 = 0 then res ++ [0, 0, 0, 0, 0, 0, 0, 0]
  else padLoop res

theorem padLoop_eq (res : List Nat) :
    padLoop res = res ++ List.replicate ((8 - res.length % 8) % 8) 0 := by
  induction res using padLoop.induct with
  | case1 res h => simp [padLoop, h]
  | case2 res h ih =>
    rw [padLoop, if_neg h, ih]
    have hlen : ((8 - (res ++ [0]).length % 8) % 8) + 1
        = (8 - res.length % 8) % 8 := by
      simp; omega
    rw [← hlen]
    simp [List.append_assoc, List.replicate_succ]

/-- Closed form of `Entry.toString`: the unpadded record followed by
one to eight zero bytes, reaching the next multiple of 8. -/
theorem toString_eq (e : Entry) :
    e.toString = e.unpadded ++
      List.replicate
        (if e.unpadded.length % 8 = 0 then 8 else 8 - e.unpadded.length % 8)
        0 := by
  by_cases h : e.unpadded.length % 8 = 0
  · simp [Entry.toString, h]
  · have h2 : (8 - e.unpadded.length % 8) % 8 = 8 - e.unpadded.length % 8 := by
      omega
    simp [Entry.toString, h, padLoop_eq, h2]

/-! ## Atomic writer (`LockFile`)

Modelled from the spec: `lockfile.rs` is not among the provided sources.
Spec §6 "Atomic Writer collaborator interface": `acquire()` succeeds or
fails when the lock is already held; `write(bytes)` buffers pending
content; `commit()` atomically replaces the target content and releases
the lock; pending content is discarded before commit on failure. -/

structure LockFile where
  /-- The bound on-disk location. -/
  path : List Nat
  /-- Whether the exclusive lock is currently held (by this or another
  process). -/
  lockHeld : Bool
  /-- Pending (buffered, uncommitted) bytes. -/
  buffer : List Nat
  /-- The committed on-disk content of the bound location. -/
  fileBytes : List Nat
deriving DecidableEq, Repr

/-- Modelled from the spec: `LockFile::new` binds the writer to a path;
no lock is taken and nothing is written. -/
def LockFile.new (path : List Nat) : LockFile :=
  { path := path, lockHeld := false, buffer := [], fileBytes := [] }

/-- Modelled from the spec: `hold_for_update` fails iff the lock is
already held, otherwise takes it. -/
def LockFile.holdForUpdate (lf : LockFile) : Except Unit LockFile :=
  if lf.lockHeld then Except.error ()
  else Except.ok { lf with lockHeld := true }

/-- Modelled from the spec: `write` appends to the pending content (the
in-memory buffering itself cannot fail; the caller ignores the result). -/
def LockFile.write (lf : LockFile) (data : List Nat) : LockFile :=
  { lf with buffer := lf.buffer ++ data }

/-- Modelled from the spec: `commit` atomically replaces the target's
content with the pending bytes and releases the lock. -/
def LockFile.commit (lf : LockFile) : LockFile :=
  { lf with fileBytes := lf.buffer, buffer := [], lockHeld := false }

/-! ## Index table (`src/index.rs`, `Index`) -/

/-- Association-list model of `HashMap<String, Entry>`: `hmInsert`
replaces the value of an existing key or appends a new binding —
observationally the map's `insert`; `List.length` of the model is the
map's `len()` (the number of distinct keys). -/
def hmInsert : List (List Nat × Entry) → List Nat → Entry →
    List (List Nat × Entry)
  | [], k, v => [(k, v)]
  | (k', v') :: m, k, v =>
    if k' = k then (k, v) :: m else (k', v') :: hmInsert m k v

/-- `HashMap::get` on the association-list model. -/
def hmGet : List (List Nat × Entry) → List Nat → Option Entry
  | [], _ => none
  | (k', v) :: m, k => if k' = k then some v else hmGet m k

/-- `Index` of `src/index.rs`.  `digest` is the list of bytes fed to the
streaming SHA-1 so far (see the file header). -/
structure Index where
  keys : List (List Nat)
  entries : List (List Nat × Entry)
  lockfile : LockFile
  digest : List Nat
deriving DecidableEq, Repr

/-- `Index::new`. -/
def Index.new (path : List Nat) : Index :=
  { keys := [], entries := [], lockfile := LockFile.new path, digest := [] }

/-- Placeholder for the `unwrap()` in `each_entry` (never reached in the
states arising from `Index::new` and `Index::add`, where every key is
present in `entries`). -/
def defaultEntry : Entry :=
  { ctime := [], ctime_nsec := [], mtime := [], mtime_nsec := [], dev := [],
    ino := [], mode := [], uid := [], gid := [], size := [], oid := [],
    flags := [], path := [] }

/-- `Index::each_entry`: sorts `self.keys` in place (Rust's stable
`Vec::sort`, modelled by the stable `List.insertionSort`; `Ord` on
`String` is byte-lexicographic), then collects the entry of each key in
that order.  Returns the collected entries together with the mutated
index. -/
def Index.eachEntry (i : Index) : List Entry × Index :=
  let sortedKeys := i.keys.insertionSort bytesLeP
  (sortedKeys.map (fun k => (hmGet i.entries k).getD defaultEntry),
   { i with keys := sortedKeys })

/-- `Index::add` of `src/index.rs`: builds the entry, re-reads the
pathname from the `PathBuf`, inserts it into the map and pushes the
pathname onto `keys`.  `none` models the `panic!()` on a non-UTF-8 path
(taken identically inside `Entry::new`). -/
def Index.add (i : Index) (path : List Nat) (object_id : List Nat)
    (stat : StatData) : Option Index :=
  match Entry.new path object_id stat, pathToStr path with
  | some entry, some pathname =>
    some { i with entries := hmInsert i.entries pathname entry,
                  keys := i.keys ++ [pathname] }
  | _, _ => none

/-- `Index::write`: pass the bytes to the lock file and feed them to the
running digest. -/
def Index.write (i : Index) (data : List Nat) : Index :=
  { i with lockfile := i.lockfile.write data, digest := i.digest ++ data }

/-- `Index::finish_write`: finalize a clone of the digest, write the
20-byte result through the lock file, and commit. -/
def Index.finishWrite (i : Index) : Index :=
  let hashResult := sha1 i.digest
  { i with lockfile := (i.lockfile.write hashResult).commit }

/-- `Index::write_updates` of `src/index.rs`. -/
def Index.writeUpdates (i : Index) : Bool × Index :=
  match i.lockfile.holdForUpdate with
  | Except.error _ => (false, i)
  | Except.ok lf =>
    let i1 : Index := { i with lockfile := lf }
    -- "DIRC", the 4-byte big-endian version 2, and the low 32 bits of
    -- `entries.len()` big-endian
    let header : List Nat :=
      [0x44, 0x49, 0x52, 0x43] ++ [0x00, 0x00, 0x00, 0x02] ++
        be32 i1.entries.length
    let i2 := i1.write header
    let p := i2.eachEntry
    let dataVec := p.1.map Entry.toString
    let i3 := dataVec.foldl (fun acc data => acc.write data) p.2
    (true, i3.finishWrite)

/-- One `add` call's arguments. -/
structure AddOp where
  path : List Nat
  object_id : List Nat
  stat : StatData
deriving DecidableEq, Repr

/-- A sequence of `Index::add` calls (`none` as soon as one panics). -/
def Index.addAll (i : Index) (ops : List AddOp) : Option Index :=
  ops.foldlM (fun acc op => acc.add op.path op.object_id op.stat) i

/-- Total variant of `Index::add`, agreeing with it on valid-UTF-8 paths
(see `add_eq_addT`). -/
def Index.addT (i : Index) (op : AddOp) : Index :=
  { i with entries := hmInsert i.entries op.path
                        (Entry.build op.path op.object_id op.stat),
           keys := i.keys ++ [op.path] }

/-- Total variant of `Index.addAll`. -/
def Index.addAllT (i : Index) (ops : List AddOp) : Index :=
  ops.foldl Index.addT i

theorem add_eq_addT (i : Index) (op : AddOp)
    (h : isValidUtf8 op.path = true) :
    i.add op.path op.object_id op.stat = some (i.addT op) := by
  simp [Index.add, Entry.new, pathToStr, h, Index.addT]

theorem addAll_eq_addAllT (ops : List AddOp) :
    ∀ i : Index, (∀ op ∈ ops, isValidUtf8 op.path = true) →
      i.addAll ops = some (i.addAllT ops) := by
  induction ops with
  | nil => intro i _; rfl
  | cons op ops ih =>
    intro i h
    have hop := h op (by simp)
    have hops : ∀ o ∈ ops, isValidUtf8 o.path = true := by
      intro o ho; exact h o (by simp [ho])
    simp only [Index.addAll, List.foldlM_cons, add_eq_addT i op hop]
    exact ih (i.addT op) hops

/-! ## Directory scanner (`src/workspace.rs`)

Paths are modelled as lists of components (Rust `Path` components); a
component name is a `String`.  `Path::ends_with` compares whole trailing
components, so for the single-component ignore names it tests the final
component; the child paths `"."` and `".."` parse to the `CurDir` /
`ParentDir` components, which never equal a `Normal` component, and
`read_dir` never yields such entries. -/

/-- A directory tree: what `fs::metadata` / `read_dir` see during the
scan.  `read_dir`'s enumeration order is the order of `children`. -/
inductive FsEntry where
  | file (name : String)
  | dir (name : String) (children : List FsEntry)

def FsEntry.name : FsEntry → String
  | .file n => n
  | .dir n _ => n

/-- `Workspace` of `src/workspace.rs`. -/
structure Workspace where
  ignore : List String
  path : List String
deriving DecidableEq, Repr

/-- `Workspace::new`. -/
def Workspace.new (path : List String) : Workspace :=
  { ignore := [".", "..", ".vscode", ".git", "target", "src", ".gitignore"],
    path := path }

/-- Rust `Path::ends_with(child)` for a single-component `child`:
matches iff the final component of `p` equals `child`; `"."` and `".."`
parse to non-`Normal` components and match no scanned path. -/
def pathEndsWith (p : List String) (child : String) : Bool :=
  if child = "." ∨ child = ".." then false
  else p.getLast? == some child

/-- `absolute_path.strip_prefix(self.path)`, with the `Err` fallback that
keeps the unstripped path. -/
def stripRoot (root p : List String) : List String :=
  if root.isPrefixOf p then p.drop root.length else p

/-- The `for file in read_files` loop of `Workspace::list_files`: `cs`
are the entries of the directory at `curPath`.  A child passing the
ignore filter is recursed into (directory) or collected root-relative
(file). -/
def listFilesFrom (ws : Workspace) (curPath : List String) :
    List FsEntry → List (List String)
  | [] => []
  | FsEntry.file n :: rest =>
    (if ws.ignore.all (fun x => !pathEndsWith (curPath ++ [n]) x) then
      [stripRoot ws.path (curPath ++ [n])]
    else []) ++ listFilesFrom ws curPath rest
  | FsEntry.dir n children :: rest =>
    (if ws.ignore.all (fun x => !pathEndsWith (curPath ++ [n]) x) then
      listFilesFrom ws (curPath ++ [n]) children
    else []) ++ listFilesFrom ws curPath rest

/-- `Workspace::list_files` on the tree rooted at `curPath`: a
non-directory is returned as-is; a directory's entries are scanned. -/
def Workspace.listFiles (ws : Workspace) (curPath : List String)
    (node : FsEntry) : List (List String) :=
  match node with
  | FsEntry.file _ => [curPath]
  | FsEntry.dir _ children => listFilesFrom ws curPath children

/-- Does the relative component path `q` lead to a file in the tree
whose entries are `cs`? -/
def leadsToFile : List FsEntry → List String → Bool
  | cs, [n] =>
    cs.any fun c => match c with
      | FsEntry.file m => m == n
      | FsEntry.dir _ _ => false
  | cs, n :: q =>
    cs.any fun c => match c with
      | FsEntry.dir m children => m == n && leadsToFile children q
      | FsEntry.file _ => false
  | _, [] => false

/-! ## Lemmas about the write protocol -/

/-- The bytes streamed through the writer (and digest) by a successful
`write_updates` on state `i`: 12-byte header then the serialized sorted
entries. -/
def writtenBytes (i : Index) : List Nat :=
  ([0x44, 0x49, 0x52, 0x43] ++ [0x00, 0x00, 0x00, 0x02] ++
    be32 i.entries.length) ++
  (((i.keys.insertionSort bytesLeP).map
      (fun k => (hmGet i.entries k).getD defaultEntry)).map
    Entry.toString).flatten

theorem foldl_write (ds : List (List Nat)) :
    ∀ i : Index, ds.foldl (fun acc data => acc.write data) i =
      { i with digest := i.digest ++ ds.flatten,
               lockfile :=
                 { i.lockfile with
                     buffer := i.lockfile.buffer ++ ds.flatten } } := by
  induction ds with
  | nil => intro i; simp
  | cons d ds ih =>
    intro i
    rw [List.foldl_cons, ih]
    simp [Index.write, LockFile.write, List.append_assoc]

/-- Master equation for a successful `write_updates`. -/
theorem writeUpdates_ok (i : Index) (h : i.lockfile.lockHeld = false) :
    i.writeUpdates =
      (true,
       { keys := i.keys.insertionSort bytesLeP,
         entries := i.entries,
         lockfile :=
           { path := i.lockfile.path,
             lockHeld := false,
             buffer := [],
             fileBytes := i.lockfile.buffer ++ writtenBytes i ++
               sha1 (i.digest ++ writtenBytes i) },
         digest := i.digest ++ writtenBytes i }) := by
  have h2 : i.lockfile.holdForUpdate =
      Except.ok { i.lockfile with lockHeld := true } := by
    simp [LockFile.holdForUpdate, h]
  simp only [Index.writeUpdates, h2, Index.eachEntry]
  rw [foldl_write]
  simp [Index.write, LockFile.write, Index.finishWrite, LockFile.commit,
    writtenBytes, List.append_assoc]

theorem addT_lockfile (i : Index) (op : AddOp) :
    (i.addT op).lockfile = i.lockfile := rfl

theorem addT_digest (i : Index) (op : AddOp) :
    (i.addT op).digest = i.digest := rfl

theorem addAllT_lockfile (ops : List AddOp) :
    ∀ i : Index, (i.addAllT ops).lockfile = i.lockfile := by
  induction ops with
  | nil => intro i; rfl
  | cons op ops ih => intro i; exact ih (i.addT op)

theorem addAllT_digest (ops : List AddOp) :
    ∀ i : Index, (i.addAllT ops).digest = i.digest := by
  induction ops with
  | nil => intro i; rfl
  | cons op ops ih => intro i; exact ih (i.addT op)

theorem addAllT_keys (ops : List AddOp) :
    ∀ i : Index, (i.addAllT ops).keys = i.keys ++ ops.map (·.path) := by
  induction ops with
  | nil => intro i; simp [Index.addAllT]
  | cons op ops ih =>
    intro i
    simp only [Index.addAllT, List.foldl_cons] at ih ⊢
    rw [ih (i.addT op)]
    simp [Index.addT]

theorem add_state (i j : Index) (pa oid : List Nat) (st : StatData)
    (h : i.add pa oid st = some j) :
    j.lockfile = i.lockfile ∧ j.digest = i.digest := by
  by_cases hv : isValidUtf8 pa = true
  · simp only [Index.add, Entry.new, pathToStr, hv, if_pos,
      Option.some.injEq] at h
    rw [← h]
    exact ⟨rfl, rfl⟩
  · simp [Index.add, Entry.new, pathToStr, hv] at h

theorem addAll_state (ops : List AddOp) :
    ∀ i j : Index, i.addAll ops = some j →
      j.lockfile = i.lockfile ∧ j.digest = i.digest := by
  induction ops with
  | nil =>
    intro i j h
    simp only [Index.addAll, List.foldlM_nil, Option.pure_def,
      Option.some.injEq] at h
    rw [← h]
    exact ⟨rfl, rfl⟩
  | cons op ops ih =>
    intro i j h
    simp only [Index.addAll, List.foldlM_cons] at h
    cases hadd : i.add op.path op.object_id op.stat with
    | none => rw [hadd] at h; simp at h
    | some i1 =>
      rw [hadd] at h
      simp only [Option.bind_eq_bind, Option.some_bind] at h
      have h1 := add_state i i1 op.path op.object_id op.stat hadd
      have h2 := ih i1 j h
      exact ⟨h2.1.trans h1.1, h2.2.trans h1.2⟩

/-- Helper for trailer claims: dropping / taking at the boundary of
`pre ++ sha1 d`. -/
theorem trailer_split (pre d : List Nat) :
    20 ≤ (pre ++ sha1 d).length ∧
    (pre ++ sha1 d).drop ((pre ++ sha1 d).length - 20) = sha1 d ∧
    (pre ++ sha1 d).take ((pre ++ sha1 d).length - 20) = pre := by
  have hlen : (pre ++ sha1 d).length = pre.length + 20 := by
    simp [sha1_length]
  refine ⟨by omega, ?_, ?_⟩
  · rw [List.drop_left' (by omega)]
  · rw [List.take_left' (by omega)]

/-- C6: when the exclusive lock is already held, `write_updates` returns
failure immediately and the index is unchanged — in particular nothing
is written through the writer (`buffer`), nothing is fed to the digest
(`digest`), and the prior on-disk bytes (`fileBytes`) are untouched. -/
theorem writeUpdates_lock_held (i : Index)
    (h : i.lockfile.lockHeld = true) :
    i.writeUpdates = (false, i) := by
  simp [Index.writeUpdates, LockFile.holdForUpdate, h]

/-- Witness for `writeUpdates_lock_held` at a concrete locked state. -/
theorem writeUpdates_lock_held_witness :
    { keys := [], entries := [],
      lockfile := { path := [], lockHeld := true, buffer := [],
                    fileBytes := [9, 9, 9] },
      digest := [] : Index }.writeUpdates =
      (false,
       { keys := [], entries := [],
         lockfile := { path := [], lockHeld := true, buffer := [],
                       fileBytes := [9, 9, 9] },
         digest := [] : Index }) :=
  writeUpdates_lock_held _ (by decide)

/-- C1: after a successful `write_updates` on an index freshly built by
`Index::new` and a sequence of `add` calls, the final 20 bytes of the
file equal the SHA-1 digest of all preceding bytes (header plus
serialized entries), the trailer itself not being digested. -/
theorem trailer_is_digest_of_preceding (p : List Nat) (ops : List AddOp)
    (i : Index) (h : (Index.new p).addAll ops = some i) :
    (i.writeUpdates).1 = true ∧
    20 ≤ (i.writeUpdates).2.lockfile.fileBytes.length ∧
    (i.writeUpdates).2.lockfile.fileBytes.drop
        ((i.writeUpdates).2.lockfile.fileBytes.length - 20) =
      sha1 ((i.writeUpdates).2.lockfile.fileBytes.take
        ((i.writeUpdates).2.lockfile.fileBytes.length - 20)) := by
  obtain ⟨hlf, hdg⟩ := addAll_state ops (Index.new p) i h
  have hlock : i.lockfile.lockHeld = false := by rw [hlf]; rfl
  have hbuf : i.lockfile.buffer = [] := by rw [hlf]; rfl
  have hdg0 : i.digest = [] := by rw [hdg]; rfl
  have e1 := writeUpdates_ok i hlock
  have hfst : (i.writeUpdates).1 = true := by rw [e1]
  have hfile : (i.writeUpdates).2.lockfile.fileBytes =
      writtenBytes i ++ sha1 (writtenBytes i) := by
    rw [e1]
    simp [hbuf, hdg0]
  obtain ⟨h1, h2, h3⟩ := trailer_split (writtenBytes i) (writtenBytes i)
  refine ⟨hfst, ?_, ?_⟩
  · rw [hfile]; exact h1
  · rw [hfile, h2, h3]

/-- Shared concrete inputs for the witnesses. -/
def statA : StatData :=
  { ctime := 100, ctime_nsec := 1, mtime := 100, mtime_nsec := 2,
    dev := 3, ino := 4, perm_mode := 0o644, uid := 5, gid := 6, size := 7 }

def statB : StatData :=
  { ctime := 200, ctime_nsec := 8, mtime := 200, mtime_nsec := 9,
    dev := 3, ino := 11, perm_mode := 0o755, uid := 5, gid := 6, size := 12 }

/-- `add("a", ...)` with a 2-byte object id. -/
def opA1 : AddOp := { path := [0x61], object_id := [1, 2], stat := statA }

/-- A second `add("a", ...)` with different metadata. -/
def opA2 : AddOp := { path := [0x61], object_id := [3, 4], stat := statB }

/-- `add("b", ...)`. -/
def opB1 : AddOp := { path := [0x62], object_id := [5], stat := statB }

/-- Witness for `trailer_is_digest_of_preceding`: one concrete `add`. -/
theorem trailer_is_digest_of_preceding_witness :
    ((Index.new [0x2e]).addAll [opA1] =
      some ((Index.new [0x2e]).addAllT [opA1])) ∧
    ((((Index.new [0x2e]).addAllT [opA1]).writeUpdates).1 = true ∧
     20 ≤ (((Index.new [0x2e]).addAllT [opA1]).writeUpdates).2.lockfile.fileBytes.length ∧
     (((Index.new [0x2e]).addAllT [opA1]).writeUpdates).2.lockfile.fileBytes.drop
         ((((Index.new [0x2e]).addAllT [opA1]).writeUpdates).2.lockfile.fileBytes.length - 20) =
       sha1 ((((Index.new [0x2e]).addAllT [opA1]).writeUpdates).2.lockfile.fileBytes.take
         ((((Index.new [0x2e]).addAllT [opA1]).writeUpdates).2.lockfile.fileBytes.length - 20))) :=
  ⟨by decide, trailer_is_digest_of_preceding [0x2e] [opA1] _ (by decide)⟩

/-- C10: the digest accumulator is never reset.  After a first successful
`write_updates`, a second one succeeds and writes as its trailer the
digest of every byte passed to `Index::write` since construction (the
first invocation's bytes followed by the second's), not the digest of the
current invocation's bytes; concretely the second file fails the
trailer-matches-preceding-bytes check. -/
theorem digest_accumulates_across_writes :
    (∀ (p : List Nat) (ops : List AddOp) (i : Index),
      (Index.new p).addAll ops = some i →
      (i.writeUpdates).1 = true ∧
      ((i.writeUpdates).2.writeUpdates).1 = true ∧
      ((i.writeUpdates).2.writeUpdates).2.lockfile.fileBytes.drop
          (((i.writeUpdates).2.writeUpdates).2.lockfile.fileBytes.length - 20) =
        sha1 ((i.writeUpdates).2.writeUpdates).2.digest ∧
      ((i.writeUpdates).2.writeUpdates).2.digest =
        (i.writeUpdates).2.digest ++
          ((i.writeUpdates).2.writeUpdates).2.lockfile.fileBytes.take
            (((i.writeUpdates).2.writeUpdates).2.lockfile.fileBytes.length - 20) ∧
      (i.writeUpdates).2.digest ≠ []) ∧
    ¬ (((Index.new []).writeUpdates).2.writeUpdates).2.lockfile.fileBytes.drop
          ((((Index.new []).writeUpdates).2.writeUpdates).2.lockfile.fileBytes.length - 20) =
        sha1 ((((Index.new []).writeUpdates).2.writeUpdates).2.lockfile.fileBytes.take
          ((((Index.new []).writeUpdates).2.writeUpdates).2.lockfile.fileBytes.length - 20)) := by
  constructor
  · intro p ops i h
    obtain ⟨hlf, hdg⟩ := addAll_state ops (Index.new p) i h
    have hlock : i.lockfile.lockHeld = false := by rw [hlf]; rfl
    have hbuf : i.lockfile.buffer = [] := by rw [hlf]; rfl
    have hdg0 : i.digest = [] := by rw [hdg]; rfl
    have e1 := writeUpdates_ok i hlock
    have hfst : (i.writeUpdates).1 = true := by rw [e1]
    have hlock1 : (i.writeUpdates).2.lockfile.lockHeld = false := by rw [e1]
    have hbuf1 : (i.writeUpdates).2.lockfile.buffer = [] := by rw [e1]
    have hdg1 : (i.writeUpdates).2.digest = writtenBytes i := by
      rw [e1]; simp [hdg0]
    have e2 := writeUpdates_ok (i.writeUpdates).2 hlock1
    have hfst2 : ((i.writeUpdates).2.writeUpdates).1 = true := by rw [e2]
    have hfile2 : ((i.writeUpdates).2.writeUpdates).2.lockfile.fileBytes =
        writtenBytes (i.writeUpdates).2 ++
          sha1 (writtenBytes i ++ writtenBytes (i.writeUpdates).2) := by
      rw [e2]
      simp [hbuf1, hdg1]
    have hdg2 : ((i.writeUpdates).2.writeUpdates).2.digest =
        writtenBytes i ++ writtenBytes (i.writeUpdates).2 := by
      rw [e2]
      simp [hdg1]
    obtain ⟨_, hdrop, htake⟩ := trailer_split (writtenBytes (i.writeUpdates).2)
      (writtenBytes i ++ writtenBytes (i.writeUpdates).2)
    refine ⟨hfst, hfst2, ?_, ?_, ?_⟩
    · rw [hfile2, hdrop, hdg2]
    · rw [hfile2, htake, hdg2, hdg1]
    · rw [hdg1, writtenBytes]
      simp
  · decide

/-- Witness for `digest_accumulates_across_writes` at the empty index. -/
theorem digest_accumulates_across_writes_witness :
    ((Index.new []).addAll [] = some (Index.new [])) ∧
    (((Index.new []).writeUpdates).1 = true ∧
     (((Index.new []).writeUpdates).2.writeUpdates).1 = true ∧
     (((Index.new []).writeUpdates).2.writeUpdates).2.lockfile.fileBytes.drop
         ((((Index.new []).writeUpdates).2.writeUpdates).2.lockfile.fileBytes.length - 20) =
       sha1 (((Index.new []).writeUpdates).2.writeUpdates).2.digest ∧
     (((Index.new []).writeUpdates).2.writeUpdates).2.digest =
       ((Index.new []).writeUpdates).2.digest ++
         (((Index.new []).writeUpdates).2.writeUpdates).2.lockfile.fileBytes.take
           ((((Index.new []).writeUpdates).2.writeUpdates).2.lockfile.fileBytes.length - 20) ∧
     ((Index.new []).writeUpdates).2.digest ≠ []) :=
  ⟨by decide,
   digest_accumulates_across_writes.1 [] [] (Index.new []) (by decide)⟩

/-- C5: the serialized entry length is always a multiple of 8, the
padding after the path is at least one zero byte, and a record whose
unpadded length is already a multiple of 8 gets a full 8-byte zero
block. -/
theorem toString_padding (e : Entry) :
    (e.toString).length % 8 = 0 ∧
    e.toString = e.unpadded ++
      List.replicate
        (if e.unpadded.length % 8 = 0 then 8 else 8 - e.unpadded.length % 8)
        0 ∧
    1 ≤ (if e.unpadded.length % 8 = 0 then 8
         else 8 - e.unpadded.length % 8) := by
  have ht := toString_eq e
  refine ⟨?_, ht, ?_⟩
  · rw [ht]
    by_cases h : e.unpadded.length % 8 = 0 <;> (simp [h]; try omega)
  · by_cases h : e.unpadded.length % 8 = 0 <;> (simp [h]; try omega)

/-- C7 counterexample: the path `[0xFF]` (not valid UTF-8) makes
`Entry::new` — and `Index::add` — terminate abnormally (the modelled
`panic!()`), refuting "no path input causes a failure or abnormal
termination of Entry construction". -/
theorem entry_new_panics_on_non_utf8 :
    Entry.new [0xFF] [1] statA = none ∧
    (Index.new []).add [0xFF] [1] statA = none := by
  decide

/-- C7 amended: `Entry::new` is a pure transform that succeeds exactly on
valid-UTF-8 paths — it aborts (panics) on any other byte sequence — and
on success it preserves the path bytes exactly. -/
theorem entry_new_succeeds_iff_utf8 (pa oid : List Nat) (st : StatData) :
    (Entry.new pa oid st).isSome = isValidUtf8 pa ∧
    (isValidUtf8 pa = true →
      Entry.new pa oid st = some (Entry.build pa oid st)) := by
  by_cases h : isValidUtf8 pa = true
  · exact ⟨by simp [Entry.new, pathToStr, h], fun _ => by
      simp [Entry.new, pathToStr, h]⟩
  · refine ⟨by simp [Entry.new, pathToStr, h], fun hc => absurd hc h⟩

/-- Witness for `entry_new_succeeds_iff_utf8` at the valid path `"a"`. -/
theorem entry_new_succeeds_iff_utf8_witness :
    ((Entry.new [0x61] [1, 2] statA).isSome = isValidUtf8 [0x61]) ∧
    Entry.new [0x61] [1, 2] statA = some (Entry.build [0x61] [1, 2] statA) :=
  ⟨(entry_new_succeeds_iff_utf8 [0x61] [1, 2] statA).1,
   (entry_new_succeeds_iff_utf8 [0x61] [1, 2] statA).2 (by decide)⟩

/-- C2 (evaluation of the defect): adding the same path twice leaves two
records for it in `each_entry` — both carrying the second insertion's
data — instead of exactly one. -/
theorem duplicate_add_duplicates_snapshot :
    (((Index.new []).addAllT [opA1, opA2]).eachEntry).1 =
      [Entry.build [0x61] [3, 4] statB, Entry.build [0x61] [3, 4] statB] := by
  decide

/-- C4 (evaluation of the defect): after a duplicate add, the streamed
header is the signature, version 2 and entry count 1 (the map's size),
while two entry records are streamed after it. -/
theorem header_count_mismatch_on_duplicate :
    ((((Index.new []).addAllT [opA1, opA2]).writeUpdates).2.lockfile.fileBytes.take 12 =
      [0x44, 0x49, 0x52, 0x43, 0x00, 0x00, 0x00, 0x02, 0x00, 0x00, 0x00, 0x01]) ∧
    ((((Index.new []).addAllT [opA1, opA2]).eachEntry).1.length = 2) := by
  decide

/-! ## Lookup lemmas for the sorted-snapshot claim -/

theorem hmGet_hmInsert (m : List (List Nat × Entry)) (k k' : List Nat)
    (v : Entry) :
    hmGet (hmInsert m k v) k' = if k = k' then some v else hmGet m k' := by
  induction m with
  | nil => simp [hmInsert, hmGet]
  | cons p m ih =>
    obtain ⟨k0, v0⟩ := p
    by_cases h0 : k0 = k
    · subst h0
      by_cases h1 : k0 = k'
      · subst h1; simp [hmInsert, hmGet]
      · simp [hmInsert, hmGet, h1]
    · by_cases h1 : k0 = k'
      · subst h1
        have : ¬ k = k0 := fun hc => h0 hc.symm
        simp [hmInsert, hmGet, h0, this]
      · simp [hmInsert, hmGet, h0, h1, ih]

theorem addAllT_get_absent (ops : List AddOp) :
    ∀ (i : Index) (k : List Nat), (∀ op ∈ ops, op.path ≠ k) →
      hmGet (i.addAllT ops).entries k = hmGet i.entries k := by
  induction ops with
  | nil => intro i k _; rfl
  | cons op0 ops ih =>
    intro i k h
    have h0 : op0.path ≠ k := h op0 (by simp)
    have := ih (i.addT op0) k (fun o ho => h o (by simp [ho]))
    simp only [Index.addAllT, List.foldl_cons] at this ⊢
    rw [this]
    simp [Index.addT, hmGet_hmInsert, h0]

theorem addAllT_get (ops : List AddOp) :
    ∀ (i : Index) (op : AddOp), (ops.map (·.path)).Nodup → op ∈ ops →
      hmGet (i.addAllT ops).entries op.path =
        some (Entry.build op.path op.object_id op.stat) := by
  induction ops with
  | nil => intro i op _ hmem; simp at hmem
  | cons op0 ops ih =>
    intro i op hnd hmem
    have hnd0 : op0.path ∉ ops.map (·.path) := by
      simp only [List.map_cons, List.nodup_cons] at hnd
      exact hnd.1
    have hndt : (ops.map (·.path)).Nodup := by
      simp only [List.map_cons, List.nodup_cons] at hnd
      exact hnd.2
    rcases List.mem_cons.mp hmem with h | h
    · subst h
      have habs : ∀ o ∈ ops, o.path ≠ op.path := by
        intro o ho hc
        exact hnd0 (hc ▸ List.mem_map_of_mem (·.path) ho)
      simp only [Index.addAllT, List.foldl_cons]
      have := addAllT_get_absent ops (i.addT op) op.path habs
      simp only [Index.addAllT] at this
      rw [this]
      simp [Index.addT, hmGet_hmInsert]
    · simp only [Index.addAllT, List.foldl_cons]
      exact ih (i.addT op0) op hndt h

/-- C3: for `add` sequences with distinct (valid) paths, `each_entry`
returns the entries in strictly increasing byte-lexicographic path
order, and the snapshot is identical for any two insertion orders of the
same `add` set. -/
theorem snapshot_sorted_and_insertion_order_independent
    (p : List Nat) (ops ops' : List AddOp) (i i' : Index)
    (hval : ∀ op ∈ ops, isValidUtf8 op.path = true)
    (hnd : (ops.map (·.path)).Nodup)
    (hperm : ops'.Perm ops)
    (h : (Index.new p).addAll ops = some i)
    (h' : (Index.new p).addAll ops' = some i') :
    (i.eachEntry).1.Pairwise (fun e₁ e₂ => bytesLt e₁.path e₂.path = true) ∧
    (i'.eachEntry).1 = (i.eachEntry).1 := by
  have hval' : ∀ op ∈ ops', isValidUtf8 op.path = true := fun op ho =>
    hval op (hperm.mem_iff.mp ho)
  have hi : i = (Index.new p).addAllT ops := by
    rw [addAll_eq_addAllT ops (Index.new p) hval] at h
    exact (Option.some.inj h).symm
  have hi' : i' = (Index.new p).addAllT ops' := by
    rw [addAll_eq_addAllT ops' (Index.new p) hval'] at h'
    exact (Option.some.inj h').symm
  subst hi
  subst hi'
  have hkeys : ((Index.new p).addAllT ops).keys = ops.map (·.path) := by
    rw [addAllT_keys]
    simp [Index.new]
  have hkeys' : ((Index.new p).addAllT ops').keys = ops'.map (·.path) := by
    rw [addAllT_keys]
    simp [Index.new]
  have hnd' : (ops'.map (·.path)).Nodup := (hperm.map (·.path)).nodup_iff.mpr hnd
  have hmemk : ∀ k ∈ List.insertionSort bytesLeP (ops.map (·.path)),
      ∃ op ∈ ops, op.path = k := by
    intro k hk
    have : k ∈ ops.map (·.path) :=
      (List.perm_insertionSort bytesLeP _).mem_iff.mp hk
    obtain ⟨op, hop, hpk⟩ := List.mem_map.mp this
    exact ⟨op, hop, hpk⟩
  have hlookup : ∀ op ∈ ops,
      hmGet ((Index.new p).addAllT ops).entries op.path =
        some (Entry.build op.path op.object_id op.stat) :=
    fun op hop => addAllT_get ops (Index.new p) op hnd hop
  have hlookup' : ∀ op ∈ ops,
      hmGet ((Index.new p).addAllT ops').entries op.path =
        some (Entry.build op.path op.object_id op.stat) :=
    fun op hop => addAllT_get ops' (Index.new p) op hnd' (hperm.mem_iff.mpr hop)
  have hpathk : ∀ k ∈ List.insertionSort bytesLeP (ops.map (·.path)),
      ((hmGet ((Index.new p).addAllT ops).entries k).getD defaultEntry).path
        = k := by
    intro k hk
    obtain ⟨op, hop, rfl⟩ := hmemk k hk
    rw [hlookup op hop]
    rfl
  have hs : List.Sorted bytesLeP
      (List.insertionSort bytesLeP (ops.map (·.path))) :=
    List.sorted_insertionSort bytesLeP _
  have hnds : (List.insertionSort bytesLeP (ops.map (·.path))).Nodup :=
    (List.perm_insertionSort bytesLeP _).nodup_iff.mpr hnd
  have hlt : (List.insertionSort bytesLeP (ops.map (·.path))).Pairwise
      (fun a b => bytesLt a b = true) :=
    (List.Pairwise.and hs hnds).imp
      (fun {a b} hab => (bytesLt_iff a b).mpr ⟨hab.1, hab.2⟩)
  constructor
  · simp only [Index.eachEntry, hkeys]
    rw [List.pairwise_map]
    exact List.Pairwise.imp_of_mem
      (fun {a b} ha hb hab => by rw [hpathk a ha, hpathk b hb]; exact hab) hlt
  · have hsortEq : List.insertionSort bytesLeP (ops'.map (·.path)) =
        List.insertionSort bytesLeP (ops.map (·.path)) :=
      List.eq_of_perm_of_sorted
        (((List.perm_insertionSort bytesLeP _).trans
            (hperm.map (·.path))).trans
          (List.perm_insertionSort bytesLeP _).symm)
        (List.sorted_insertionSort bytesLeP _) hs
    simp only [Index.eachEntry, hkeys, hkeys', hsortEq]
    apply List.map_congr_left
    intro k hk
    obtain ⟨op, hop, rfl⟩ := hmemk k hk
    rw [hlookup op hop, hlookup' op hop]

/-- Witness for `snapshot_sorted_and_insertion_order_independent`: the
two-entry set `{"a", "b"}` inserted in both orders. -/
theorem snapshot_sorted_and_insertion_order_independent_witness :
    ((((Index.new []).addAllT [opA1, opB1]).eachEntry).1.Pairwise
      (fun e₁ e₂ => bytesLt e₁.path e₂.path = true)) ∧
    ((((Index.new []).addAllT [opB1, opA1]).eachEntry).1 =
      (((Index.new []).addAllT [opA1, opB1]).eachEntry).1) :=
  snapshot_sorted_and_insertion_order_independent [] [opA1, opB1]
    [opB1, opA1] _ _ (by decide) (by decide) (by decide) (by decide)
    (by decide)

theorem leadsToFile_cons (c : FsEntry) (cs : List FsEntry)
    (s : List String) (h : leadsToFile cs s = true) :
    leadsToFile (c :: cs) s = true := by
  match s with
  | [] => simp [leadsToFile] at h
  | [n] =>
    simp only [leadsToFile, List.any_cons, Bool.or_eq_true] at h ⊢
    exact Or.inr h
  | n :: m :: q =>
    simp only [leadsToFile, List.any_cons, Bool.or_eq_true] at h ⊢
    exact Or.inr h

theorem leadsToFile_file_head (n : String) (cs : List FsEntry) :
    leadsToFile (FsEntry.file n :: cs) [n] = true := by
  simp [leadsToFile]

theorem leadsToFile_dir_head (n : String) (children cs : List FsEntry)
    (s : List String) (hne : s ≠ []) (h : leadsToFile children s = true) :
    leadsToFile (FsEntry.dir n children :: cs) (n :: s) = true := by
  match s, hne with
  | m :: q, _ =>
    simp only [leadsToFile, List.any_cons, Bool.or_eq_true]
    exact Or.inl (by simp [h])

theorem leadsToFile_nil_false (cs : List FsEntry) :
    leadsToFile cs [] = false := by
  simp [leadsToFile]

/-- Passing the ignore filter means the final component is none of the
five effective ignored names (in particular not `".git"`). -/
theorem filter_pass_final_component (root cur : List String) (n : String)
    (h : (Workspace.new root).ignore.all
      (fun x => !pathEndsWith (cur ++ [n]) x) = true) :
    n ≠ ".git" := by
  intro hn
  have hmem : ".git" ∈ (Workspace.new root).ignore := by
    simp [Workspace.new]
  have := List.all_eq_true.mp h ".git" hmem
  rw [pathEndsWith, if_neg (by decide), List.getLast?_concat] at this
  simp [hn] at this

theorem isPrefixOf_append_self (root rest : List String) :
    root.isPrefixOf (root ++ rest) = true := by
  induction root with
  | nil => simp [List.isPrefixOf]
  | cons a root ih => simp [List.isPrefixOf, ih]

/-- Generalized form of C9 over the traversal: every collected path is
the path so far below the root (`acc`) extended by a component path that
avoids `".git"` and leads to a file of the scanned entries. -/
theorem listFilesFrom_spec (root : List String) :
    ∀ (cur : List String) (cs : List FsEntry),
      (∃ acc, cur = root ++ acc) →
      ∀ q ∈ listFilesFrom (Workspace.new root) cur cs,
        ∃ s, q = cur.drop root.length ++ s ∧ ".git" ∉ s ∧
          leadsToFile cs s = true := by
  intro cur cs
  refine listFilesFrom.induct (Workspace.new root)
    (fun cur cs => (∃ acc, cur = root ++ acc) →
      ∀ q ∈ listFilesFrom (Workspace.new root) cur cs,
        ∃ s, q = cur.drop root.length ++ s ∧ ".git" ∉ s ∧
          leadsToFile cs s = true)
    ?_ ?_ ?_ cur cs
  · intro cur _ q hq
    simp [listFilesFrom] at hq
  · intro cur n rest ih hacc q hq
    obtain ⟨acc, rfl⟩ := hacc
    rw [listFilesFrom] at hq
    rcases List.mem_append.mp hq with h1 | h2
    · by_cases hc : (Workspace.new root).ignore.all
          (fun x => !pathEndsWith ((root ++ acc) ++ [n]) x) = true
      · rw [if_pos hc] at h1
        have hq1 : q = stripRoot (Workspace.new root).path
            ((root ++ acc) ++ [n]) := by
          simpa using h1
        have hstrip : stripRoot (Workspace.new root).path
            ((root ++ acc) ++ [n]) =
            (root ++ acc).drop root.length ++ [n] := by
          show stripRoot root ((root ++ acc) ++ [n]) =
            (root ++ acc).drop root.length ++ [n]
          rw [stripRoot, List.append_assoc,
            if_pos (isPrefixOf_append_self root (acc ++ [n])),
            List.drop_left, List.drop_left]
        refine ⟨[n], by rw [hq1, hstrip], ?_, leadsToFile_file_head n rest⟩
        have := filter_pass_final_component root (root ++ acc) n hc
        simpa using Ne.symm this
      · rw [if_neg hc] at h1
        simp at h1
    · obtain ⟨s, hs1, hs2, hs3⟩ := ih ⟨acc, rfl⟩ q h2
      exact ⟨s, hs1, hs2, leadsToFile_cons _ _ _ hs3⟩
  · intro cur n children rest ih1 ih2 hacc q hq
    obtain ⟨acc, rfl⟩ := hacc
    rw [listFilesFrom] at hq
    rcases List.mem_append.mp hq with h1 | h2
    · by_cases hc : (Workspace.new root).ignore.all
          (fun x => !pathEndsWith ((root ++ acc) ++ [n]) x) = true
      · rw [if_pos hc] at h1
        obtain ⟨s, hs1, hs2, hs3⟩ :=
          ih1 ⟨acc ++ [n], by rw [List.append_assoc]⟩ q h1
        have hne : s ≠ [] := by
          intro hd
          rw [hd, leadsToFile_nil_false children] at hs3
          exact Bool.false_ne_true hs3
        refine ⟨n :: s, ?_, ?_, leadsToFile_dir_head n children rest s hne hs3⟩
        · rw [hs1]
          have e1 : ((root ++ acc) ++ [n]).drop root.length = acc ++ [n] := by
            rw [List.append_assoc, List.drop_left]
          have e2 : (root ++ acc).drop root.length = acc := List.drop_left _ _
          rw [e1, e2]
          simp
        · have hng := filter_pass_final_component root (root ++ acc) n hc
          simp only [List.mem_cons, not_or]
          exact ⟨fun hgc => hng hgc.symm, hs2⟩
      · rw [if_neg hc] at h1
        simp at h1
    · obtain ⟨s, hs1, hs2, hs3⟩ := ih2 ⟨acc, rfl⟩ q h2
      exact ⟨s, hs1, hs2, leadsToFile_cons _ _ _ hs3⟩

/-- C9: scanning a directory tree from the workspace root excludes every
path under any `.git` directory (no returned path has `".git"` as a
component, which any path below a `.git` directory would have), and
every returned path is relative to the scanning root: interpreted
against the scanned tree's entries it leads to a file. -/
theorem listFiles_excludes_git_and_is_relative (root : List String)
    (dirname : String) (children : List FsEntry) (q : List String)
    (hq : q ∈ (Workspace.new root).listFiles root
      (FsEntry.dir dirname children)) :
    ".git" ∉ q ∧ leadsToFile children q = true := by
  obtain ⟨s, hs1, hs2, hs3⟩ :=
    listFilesFrom_spec root root children ⟨[], by simp⟩ q hq
  rw [List.drop_length, List.nil_append] at hs1
  rw [hs1]
  exact ⟨hs2, hs3⟩

/-- Witness for `listFiles_excludes_git_and_is_relative`: a tree with a
`.git` directory next to ordinary entries. -/
theorem listFiles_excludes_git_and_is_relative_witness :
    (["a", "y"] ∈ (Workspace.new ["r"]).listFiles ["r"]
      (FsEntry.dir "r"
        [FsEntry.dir ".git" [FsEntry.file "x"],
         FsEntry.dir "a" [FsEntry.file "y"],
         FsEntry.file "z.txt"])) ∧
    (".git" ∉ (["a", "y"] : List String) ∧
     leadsToFile
       [FsEntry.dir ".git" [FsEntry.file "x"],
        FsEntry.dir "a" [FsEntry.file "y"],
        FsEntry.file "z.txt"] ["a", "y"] = true) :=
  ⟨by simp [Workspace.listFiles, listFilesFrom, pathEndsWith,
      Workspace.new, stripRoot],
   listFiles_excludes_git_and_is_relative ["r"] "r"
     [FsEntry.dir ".git" [FsEntry.file "x"],
      FsEntry.dir "a" [FsEntry.file "y"],
      FsEntry.file "z.txt"] ["a", "y"]
     (by simp [Workspace.listFiles, listFilesFrom, pathEndsWith,
       Workspace.new, stripRoot])⟩

/-- C8 counterexample: the file name `"foo.git"` ends, as text, in the
ignored name `".git"`, yet the scanner does not exclude it — the claim
that a path whose textual suffix equals an ignored name is excluded is
false on the code (`Path::ends_with` compares whole components). -/
theorem textual_suffix_is_not_excluded :
    ("foo.git" = "foo" ++ ".git") ∧
    listFilesFrom (Workspace.new []) [] [FsEntry.file "foo.git"] =
      [["foo.git"]] := by
  constructor
  · rfl
  · simp [listFilesFrom, pathEndsWith, Workspace.new, stripRoot]

/-- C8 amended: the ignore filter matches whole trailing path components
(Rust `Path::ends_with`), so a child is excluded exactly when its own
name equals one of the five effective ignored names (`"."` and `".."`
parse to non-normal components and never match); textual suffixes play
no role. -/
theorem ignore_matches_final_component (root cur : List String)
    (c : FsEntry) (rest : List FsEntry) :
    listFilesFrom (Workspace.new root) cur (c :: rest) =
      (if c.name ∈ [".vscode", ".git", "target", "src", ".gitignore"] then
        []
      else
        match c with
        | FsEntry.file n => [stripRoot root (cur ++ [n])]
        | FsEntry.dir n children =>
          listFilesFrom (Workspace.new root) (cur ++ [n]) children) ++
      listFilesFrom (Workspace.new root) cur rest := by
  cases c with
  | file n =>
    by_cases h1 : n = ".vscode" <;> by_cases h2 : n = ".git" <;>
    by_cases h3 : n = "target" <;> by_cases h4 : n = "src" <;>
    by_cases h5 : n = ".gitignore" <;>
    simp [listFilesFrom, pathEndsWith, Workspace.new, FsEntry.name,
      List.getLast?_concat, h1, h2, h3, h4, h5]
  | dir n children =>
    by_cases h1 : n = ".vscode" <;> by_cases h2 : n = ".git" <;>
    by_cases h3 : n = "target" <;> by_cases h4 : n = "src" <;>
    by_cases h5 : n = ".gitignore" <;>
    simp [listFilesFrom, pathEndsWith, Workspace.new, FsEntry.name,
      List.getLast?_concat, h1, h2, h3, h4, h5]
